import Mathlib

/-!
Verification development for a Connect-Four minimax agent (`agents.py`).

The program's game mechanics live in a module (`connect_four`) that is not part
of the sources; its operations (`coords_legal`, `get_legal_moves`,
`advance_state`, terminal detection) are modelled from the specification and
marked as such.  The search (`minimax`), the heuristics (`zero_heur`,
`three_line_heur`, `my_heuristic`) and the agent's move selection
(`MinimaxPlayer.play`) are translated from the source.
-/

namespace C4

/-- A search value.  The source initialises the running value with Python's
`float('-inf')` / `float('inf')` before folding `max` / `min` over the
children, so values are integers extended with two infinities. -/
inductive Val where
  | negInf : Val
  | fin : Int → Val
  | posInf : Val
deriving DecidableEq, Repr

/-- Strict order on `Val`, mirroring Python's `<` on numbers with infinities. -/
def Val.lt : Val → Val → Bool
  | .negInf, .negInf => false
  | .negInf, _ => true
  | .fin _, .negInf => false
  | .fin a, .fin b => decide (a < b)
  | .fin _, .posInf => true
  | .posInf, _ => false

/-- Non-strict order on `Val`. -/
def Val.le (a b : Val) : Bool := !(Val.lt b a)

/-- Python's `max(a, b)`: returns `a` unless `a < b`. -/
def vmax (a b : Val) : Val := if Val.lt a b then b else a

/-- Python's `min(a, b)`: returns `a` unless `b < a`. -/
def vmin (a b : Val) : Val := if Val.lt b a then b else a

/-- The board state consumed by the search and the heuristics.  Field names
follow the attributes the source reads: `board[i][j]` is the mark in column
`i`, row `j` (one of `"."`, `"x"`, `"o"`), `turn` is the role to move,
`is_terminal` and `winner` describe the terminal status (`winner = ""` means
draw or ongoing). -/
structure State where
  num_cols : Nat
  num_rows : Nat
  board : List (List String)
  turn : String
  is_terminal : Bool
  winner : String
deriving DecidableEq, Repr

/-- `state.board[i][j]` for in-range indices (out-of-range reads default to
an empty cell; the source only indexes after a bounds check). -/
def State.cell (s : State) (i j : Nat) : String :=
  (s.board.getD i []).getD j "."

/-- Cell access at integer coordinates, used after `coords_legal` checks. -/
def State.cellI (s : State) (c r : Int) : String :=
  s.cell c.toNat r.toNat

/-- Modelled from the spec: the bounds predicate of the missing
`connect_four.State` ("bounds predicates for direction-scanning
heuristics"): both coordinates lie inside the grid. -/
def State.coords_legal (s : State) (c r : Int) : Bool :=
  decide (0 ≤ c) && decide (c < (s.num_cols : Int)) &&
    decide (0 ≤ r) && decide (r < (s.num_rows : Int))

/-- Modelled from the spec: `legalMoves` of the missing `connect_four.State`
("ordered sequence of Move", "a column selector, valid only when the targeted
column is not full"): the columns, in increasing order, that still have an
empty cell. -/
def State.get_legal_moves (s : State) : List Nat :=
  (List.range s.num_cols).filter
    (fun i => (List.range s.num_rows).any (fun j => s.cell i j == "."))

/-- Modelled from the spec: whether role `p` has four aligned marks
(horizontal, vertical or diagonal), used by the modelled `advance_state` to
derive the terminal status of the missing `connect_four.State`. -/
def State.has_four (s : State) (p : String) : Bool :=
  (List.range s.num_cols).any fun i =>
    (List.range s.num_rows).any fun j =>
      [((1 : Int), (0 : Int)), (0, 1), (1, 1), (1, -1)].any fun d =>
        (List.range 4).all fun k =>
          s.coords_legal ((i : Int) + k * d.1) ((j : Int) + k * d.2) &&
            s.cellI ((i : Int) + k * d.1) ((j : Int) + k * d.2) == p

/-- Modelled from the spec: every cell of the grid is occupied. -/
def State.board_full (s : State) : Bool :=
  (List.range s.num_cols).all fun i =>
    (List.range s.num_rows).all fun j => !(s.cell i j == ".")

/-- Modelled from the spec: `applyMove` of the missing `connect_four.State`
("pure; returns a new position, does not mutate the argument"): the mover's
mark drops to the lowest empty row of the chosen column, the turn passes to
the other role, and the terminal status is recomputed (a four-in-a-row of the
mover wins; a full board without a winner is a draw). -/
def State.advance_state (s : State) (m : Nat) : State :=
  let j := ((List.range s.num_rows).find? (fun j => s.cell m j == ".")).getD 0
  let b := s.board.set m ((s.board.getD m []).set j s.turn)
  let s1 : State := { s with
    board := b
    turn := if s.turn == "x" then "o" else "x" }
  let w := if s1.has_four s.turn then s.turn else ""
  { s1 with winner := w, is_terminal := !(w == "") || s1.board_full }

/-- Modelled from the spec: the orchestrator's alternating play, used to
exhibit positions reachable in a game.  Applies the listed column moves in
turn, failing if a move is illegal or the game has already ended. -/
def playSeq : State → List Nat → Option State
  | s, [] => some s
  | s, m :: rest =>
    if s.is_terminal then none
    else if m ∈ s.get_legal_moves then playSeq (s.advance_state m) rest
    else none

/-- The empty 7-column, 6-row starting position. -/
def initial_state : State :=
  { num_cols := 7
    num_rows := 6
    board := List.replicate 7 (List.replicate 6 ".")
    turn := "x"
    is_terminal := false
    winner := "" }

/-- The four scan directions' column steps (right, up-right, up, up-left). -/
def col_dirs : List Int := [1, 1, 0, -1]

/-- The four scan directions' row steps. -/
def row_dirs : List Int := [0, 1, 1, 1]

/-- `zero_heur` from the source: `0` for any non-terminal state, and the true
evaluation (`100` / `0` / `-100`) on terminal states. -/
def zero_heur (state : State) (max_role : String) : Int :=
  if state.is_terminal then
    if state.winner = "" then 0
    else if state.winner = max_role then 100
    else -100
  else 0

/-- `three_line_heur` from the source: the true evaluation on terminal
states; otherwise, for every occupied cell and each of the four directions,
adds `1` (maximiser) or subtracts `1` (minimiser) when the two next cells in
that direction are in bounds and carry the same mark. -/
def three_line_heur (state : State) (max_role : String) : Int :=
  if state.is_terminal then
    if state.winner = "" then 0
    else if state.winner = max_role then 100
    else -100
  else
    (List.range state.num_cols).foldl (fun result i =>
      (List.range state.num_rows).foldl (fun result j =>
        if state.cell i j ≠ "." then
          let piece := state.cell i j
          (List.range col_dirs.length).foldl (fun result dir =>
            let dc := col_dirs.getD dir 0
            let dr := row_dirs.getD dir 0
            let fc : Int := (i : Int) + 2 * dc
            let fr : Int := (j : Int) + 2 * dr
            if state.coords_legal fc fr then
              if piece = state.cellI ((i : Int) + dc) ((j : Int) + dr) ∧
                  piece = state.cellI fc fr then
                if piece = max_role then result + 1 else result - 1
              else result
            else result) result
        else result) result) 0

/-- The forward scan of `my_heuristic`: walks up to three steps from the
piece in direction `(dc, dr)`, counting consecutive equal marks, and stops at
the first empty cell (one open end), an opposing mark, or the board edge. -/
def scanLoop (state : State) (piece : String) (i j dc dr : Int) :
    List Int → Nat × Nat → Nat × Nat
  | [], acc => acc
  | dist :: rest, acc =>
    let next_col := i + dist * dc
    let next_row := j + dist * dr
    if state.coords_legal next_col next_row then
      if state.cellI next_col next_row = piece then
        scanLoop state piece i j dc dr rest (acc.1 + 1, acc.2)
      else if state.cellI next_col next_row = "." then (acc.1, acc.2 + 1)
      else acc
    else acc

/-- `my_heuristic` from the source: the true evaluation on terminal states;
otherwise a centre-column bonus of `±2` per piece plus, per piece and
direction, `±5` for a pair with an open end, `±10` for a triple with an open
end, `±7` for a blocked triple, and `±3` for a lone piece open on both
sides. -/
def my_heuristic (state : State) (max_role : String) : Int :=
  if state.is_terminal then
    if state.winner = "" then 0
    else if state.winner = max_role then 100
    else -100
  else
    (List.range state.num_cols).foldl (fun result i =>
      (List.range state.num_rows).foldl (fun result j =>
        if state.cell i j ≠ "." then
          let piece := state.cell i j
          let result := if i = state.num_cols / 2 then
              if piece = max_role then result + 2 else result - 2
            else result
          (List.range col_dirs.length).foldl (fun result dir =>
            let dc := col_dirs.getD dir 0
            let dr := row_dirs.getD dir 0
            let scanned := scanLoop state piece (i : Int) (j : Int) dc dr [1, 2, 3] (0, 0)
            let in_a_row := scanned.1
            let opposite_col := (i : Int) - dc
            let opposite_row := (j : Int) - dr
            let open_ends := if state.coords_legal opposite_col opposite_row ∧
                state.cellI opposite_col opposite_row = "." then scanned.2 + 1 else scanned.2
            if in_a_row = 1 ∧ 1 ≤ open_ends then
              if piece = max_role then result + 5 else result - 5
            else if in_a_row = 2 then
              if 1 ≤ open_ends then
                if piece = max_role then result + 10 else result - 10
              else
                if piece = max_role then result + 7 else result - 7
            else if in_a_row = 0 ∧ open_ends = 2 then
              if piece = max_role then result + 3 else result - 3
            else result) result
        else result) result) 0

/-- A node of the search tree: the wrapped state, the computed value
(initially `0`), and the move-indexed successor mapping (insertion-ordered,
as a Python `dict` is). -/
inductive MinimaxNode : Type where
  | mk (state : State) (value : Val) (successors : List (Nat × MinimaxNode)) : MinimaxNode

/-- The node's state. -/
def MinimaxNode.state : MinimaxNode → State
  | .mk s _ _ => s

/-- The node's value. -/
def MinimaxNode.value : MinimaxNode → Val
  | .mk _ v _ => v

/-- The node's successor mapping. -/
def MinimaxNode.successors : MinimaxNode → List (Nat × MinimaxNode)
  | .mk _ _ c => c

/-- `minimax` from the source, with an explicit `fuel` bound on the recursion
depth (the translation returns `none` instead of running forever; a call that
returns is reported as `some (value, updated node)`).  Base case: at depth
`0` or on a terminal state the node's value becomes the heuristic evaluation
and the successors are untouched.  Otherwise one child per legal move is
created from a copy of the state advanced by that move, every child is
searched at `depth - 1`, and the node's value is the fold of `max`
(maximising turn, starting from `-inf`) or `min` (otherwise, starting from
`inf`) over the children's values, exactly as the source's loop computes. -/
def minimaxF : Nat → MinimaxNode → Int → String → (State → String → Int) →
    Option (Val × MinimaxNode)
  | fuel, node, depth, max_role, heuristic_fn =>
    if depth = 0 ∨ node.state.is_terminal then
      let v := Val.fin (heuristic_fn node.state max_role)
      some (v, .mk node.state v node.successors)
    else
      match fuel with
      | 0 => none
      | f + 1 =>
        let moves := node.state.get_legal_moves
        let results := moves.map (fun m =>
          (m, minimaxF f (.mk (node.state.advance_state m) (.fin 0) [])
            (depth - 1) max_role heuristic_fn))
        if results.all (fun x => x.2.isSome) then
          let children := results.map (fun x =>
            (x.1, x.2.getD (Val.fin 0, .mk node.state (Val.fin 0) [])))
          let vals := children.map (fun x => x.2.1)
          let v := if node.state.turn = max_role then vals.foldl vmax Val.negInf
            else vals.foldl vmin Val.posInf
          some (v, .mk node.state v (children.map (fun x => (x.1, x.2.2))))
        else none

/-- One step of the move-selection scan of `MinimaxPlayer.play`: given the
successor list `L` of the root, the moves `bm` tied for the best value so
far, and the next entry, a strictly better value resets the list, an equal
value (looked up through the first recorded best move, as the source does)
appends, and a worse value is ignored. -/
def bmStep (L : List (Nat × MinimaxNode)) (bm : List Nat) (mc : Nat × MinimaxNode) :
    List Nat :=
  match bm with
  | [] => [mc.1]
  | b :: _ =>
    match L.lookup b with
    | none => bm
    | some bn =>
      if Val.lt bn.value mc.2.value then [mc.1]
      else if mc.2.value = bn.value then bm ++ [mc.1]
      else bm

/-- The move-selection scan of `MinimaxPlayer.play`: walks the root's
successors keeping the list of moves tied for the best value seen so far. -/
def best_moves (root : MinimaxNode) : List Nat :=
  root.successors.foldl (bmStep root.successors) []

/-- `MinimaxPlayer.play` from the source: wraps the state in a fresh root,
searches it at the configured depth, and returns the entry of `best_moves`
selected by the random draw (`randint(0, len - 1)` is modelled by the
arbitrary index `k % length`; the empty-range error raised when no successor
exists is modelled by `none`). -/
def play (fuel : Nat) (depth : Int) (role : String)
    (heur : State → String → Int) (k : Nat) (s : State) : Option Nat :=
  match minimaxF fuel (.mk s (.fin 0) []) depth role heur with
  | none => none
  | some (_, root) =>
    if (best_moves root).isEmpty then none
    else (best_moves root).get? (k % (best_moves root).length)

/-! ### Order lemmas for `Val` -/

theorem Val.lt_irrefl (a : Val) : Val.lt a a = false := by
  cases a <;> simp [Val.lt]

theorem Val.lt_asymm {a b : Val} (h : Val.lt a b = true) : Val.lt b a = false := by
  cases a <;> cases b <;> simp_all [Val.lt] <;> omega

theorem Val.lt_of_not_lt_of_ne {a b : Val} (h : Val.lt a b = false) (hne : a ≠ b) :
    Val.lt b a = true := by
  cases a <;> cases b <;> simp_all [Val.lt] <;> omega

theorem Val.le_refl (a : Val) : Val.le a a = true := by
  simp [Val.le, Val.lt_irrefl]

theorem Val.le_trans {a b c : Val} (h1 : Val.le a b = true) (h2 : Val.le b c = true) :
    Val.le a c = true := by
  cases a <;> cases b <;> cases c <;> simp_all [Val.le, Val.lt] <;> omega

theorem le_vmax_left (a b : Val) : Val.le a (vmax a b) = true := by
  unfold vmax
  split
  · next h => simp [Val.le, Val.lt_asymm h]
  · exact Val.le_refl a

theorem le_vmax_right (a b : Val) : Val.le b (vmax a b) = true := by
  unfold vmax
  split
  · exact Val.le_refl b
  · next h => simp [Val.le, h]

theorem vmin_le_left (a b : Val) : Val.le (vmin a b) a = true := by
  unfold vmin
  split
  · next h => simp [Val.le, Val.lt_asymm h]
  · exact Val.le_refl a

theorem vmin_le_right (a b : Val) : Val.le (vmin a b) b = true := by
  unfold vmin
  split
  · exact Val.le_refl b
  · next h => simp [Val.le, h]

theorem vmax_choice (a b : Val) : vmax a b = a ∨ vmax a b = b := by
  unfold vmax
  split
  · exact Or.inr rfl
  · exact Or.inl rfl

theorem vmin_choice (a b : Val) : vmin a b = a ∨ vmin a b = b := by
  unfold vmin
  split
  · exact Or.inr rfl
  · exact Or.inl rfl

theorem foldl_vmax_acc_le : ∀ (l : List Val) (a : Val), Val.le a (l.foldl vmax a) = true
  | [], a => Val.le_refl a
  | w :: l, a => Val.le_trans (le_vmax_left a w) (foldl_vmax_acc_le l (vmax a w))

theorem foldl_vmax_le_of_mem : ∀ (l : List Val) (a w : Val), w ∈ l →
    Val.le w (l.foldl vmax a) = true
  | [], _, _, h => absurd h (List.not_mem_nil _)
  | u :: l, a, w, h => by
    rcases List.mem_cons.mp h with h | h
    · subst h
      exact Val.le_trans (le_vmax_right a w) (foldl_vmax_acc_le l (vmax a w))
    · exact foldl_vmax_le_of_mem l (vmax a u) w h

theorem foldl_vmin_acc_le : ∀ (l : List Val) (a : Val), Val.le (l.foldl vmin a) a = true
  | [], a => Val.le_refl a
  | w :: l, a => Val.le_trans (foldl_vmin_acc_le l (vmin a w)) (vmin_le_left a w)

theorem foldl_vmin_le_of_mem : ∀ (l : List Val) (a w : Val), w ∈ l →
    Val.le (l.foldl vmin a) w = true
  | [], _, _, h => absurd h (List.not_mem_nil _)
  | u :: l, a, w, h => by
    rcases List.mem_cons.mp h with h | h
    · subst h
      exact Val.le_trans (foldl_vmin_acc_le l (vmin a w)) (vmin_le_right a w)
    · exact foldl_vmin_le_of_mem l (vmin a u) w h

theorem foldl_vmax_mem : ∀ (l : List Val) (a : Val),
    l.foldl vmax a = a ∨ l.foldl vmax a ∈ l
  | [], _ => Or.inl rfl
  | u :: l, a => by
    rw [List.foldl_cons]
    rcases foldl_vmax_mem l (vmax a u) with h | h
    · rw [h]
      rcases vmax_choice a u with h2 | h2
      · exact Or.inl h2
      · exact Or.inr (by rw [h2]; exact List.mem_cons_self u l)
    · exact Or.inr (List.mem_cons_of_mem u h)

theorem foldl_vmin_mem : ∀ (l : List Val) (a : Val),
    l.foldl vmin a = a ∨ l.foldl vmin a ∈ l
  | [], _ => Or.inl rfl
  | u :: l, a => by
    rw [List.foldl_cons]
    rcases foldl_vmin_mem l (vmin a u) with h | h
    · rw [h]
      rcases vmin_choice a u with h2 | h2
      · exact Or.inl h2
      · exact Or.inr (by rw [h2]; exact List.mem_cons_self u l)
    · exact Or.inr (List.mem_cons_of_mem u h)

theorem foldl_vmax_const : ∀ (l : List Val) (z : Val), (∀ w ∈ l, w = z) →
    l.foldl vmax z = z
  | [], _, _ => rfl
  | u :: l, z, h => by
    have hu : u = z := h u (List.mem_cons_self u l)
    have : vmax z u = z := by
      subst hu
      rcases vmax_choice u u with h2 | h2 <;> exact h2
    rw [List.foldl_cons, this]
    exact foldl_vmax_const l z (fun w hw => h w (List.mem_cons_of_mem u hw))

theorem foldl_vmin_const : ∀ (l : List Val) (z : Val), (∀ w ∈ l, w = z) →
    l.foldl vmin z = z
  | [], _, _ => rfl
  | u :: l, z, h => by
    have hu : u = z := h u (List.mem_cons_self u l)
    have : vmin z u = z := by
      subst hu
      rcases vmin_choice u u with h2 | h2 <;> exact h2
    rw [List.foldl_cons, this]
    exact foldl_vmin_const l z (fun w hw => h w (List.mem_cons_of_mem u hw))

theorem foldl_vmax_negInf_const (l : List Val) (hne : l ≠ [])
    (h : ∀ w ∈ l, w = Val.fin 0) : l.foldl vmax Val.negInf = Val.fin 0 := by
  cases l with
  | nil => exact absurd rfl hne
  | cons u l =>
    have hu : u = Val.fin 0 := h u (List.mem_cons_self u l)
    have : vmax Val.negInf u = Val.fin 0 := by subst hu; rfl
    rw [List.foldl_cons, this]
    exact foldl_vmax_const l _ (fun w hw => h w (List.mem_cons_of_mem u hw))

theorem foldl_vmin_posInf_const (l : List Val) (hne : l ≠ [])
    (h : ∀ w ∈ l, w = Val.fin 0) : l.foldl vmin Val.posInf = Val.fin 0 := by
  cases l with
  | nil => exact absurd rfl hne
  | cons u l =>
    have hu : u = Val.fin 0 := h u (List.mem_cons_self u l)
    have : vmin Val.posInf u = Val.fin 0 := by subst hu; rfl
    rw [List.foldl_cons, this]
    exact foldl_vmin_const l _ (fun w hw => h w (List.mem_cons_of_mem u hw))

/-! ### Structural lemmas about `minimaxF` -/

theorem minimaxF_base (f : Nat) (s : State) (v0 : Val) (sc : List (Nat × MinimaxNode))
    (d : Int) (mr : String) (hfn : State → String → Int)
    (h : d = 0 ∨ s.is_terminal = true) :
    minimaxF f (.mk s v0 sc) d mr hfn =
      some (.fin (hfn s mr), .mk s (.fin (hfn s mr)) sc) := by
  rw [minimaxF.eq_def]
  simp only [MinimaxNode.state, MinimaxNode.successors]
  rw [if_pos h]

theorem minimaxF_succ_eq (f : Nat) (s : State) (v0 : Val) (sc : List (Nat × MinimaxNode))
    (d : Int) (mr : String) (hfn : State → String → Int)
    (hd : ¬d = 0) (ht : s.is_terminal = false) :
    minimaxF (f + 1) (.mk s v0 sc) d mr hfn =
      (let results := s.get_legal_moves.map (fun m =>
        (m, minimaxF f (.mk (s.advance_state m) (.fin 0) []) (d - 1) mr hfn))
      if results.all (fun x => x.2.isSome) then
        let children := results.map (fun x => (x.1, x.2.getD (Val.fin 0, .mk s (Val.fin 0) [])))
        let vals := children.map (fun x => x.2.1)
        let v := if s.turn = mr then vals.foldl vmax Val.negInf else vals.foldl vmin Val.posInf
        some (v, .mk s v (children.map (fun x => (x.1, x.2.2))))
      else none) := by
  conv_lhs => rw [minimaxF.eq_def]
  simp only [MinimaxNode.state, MinimaxNode.successors]
  rw [if_neg (by simp [hd, ht])]

theorem minimaxF_value (f : Nat) (x : MinimaxNode) (d : Int) (mr : String)
    (hfn : State → String → Int) (v : Val) (n : MinimaxNode)
    (h : minimaxF f x d mr hfn = some (v, n)) : n.value = v := by
  obtain ⟨s, v0, sc⟩ := x
  by_cases hb : d = 0 ∨ s.is_terminal = true
  · rw [minimaxF_base f s v0 sc d mr hfn hb] at h
    injection h with h'
    injection h' with h1 h2
    subst h1; subst h2
    rfl
  · push_neg at hb
    obtain ⟨hd, ht'⟩ := hb
    have ht : s.is_terminal = false := by simpa using ht'
    cases f with
    | zero =>
      rw [minimaxF.eq_def] at h
      simp only [MinimaxNode.state] at h
      rw [if_neg (by simp [hd, ht])] at h
      exact Option.noConfusion h
    | succ f =>
      rw [minimaxF_succ_eq f s v0 sc d mr hfn hd ht] at h
      simp only [] at h
      split at h
      · injection h with h'
        injection h' with h1 h2
        subst h1; subst h2
        rfl
      · exact Option.noConfusion h

theorem minimaxF_state (f : Nat) (x : MinimaxNode) (d : Int) (mr : String)
    (hfn : State → String → Int) (v : Val) (n : MinimaxNode)
    (h : minimaxF f x d mr hfn = some (v, n)) : n.state = x.state := by
  obtain ⟨s, v0, sc⟩ := x
  by_cases hb : d = 0 ∨ s.is_terminal = true
  · rw [minimaxF_base f s v0 sc d mr hfn hb] at h
    injection h with h'
    injection h' with h1 h2
    subst h2
    rfl
  · push_neg at hb
    obtain ⟨hd, ht'⟩ := hb
    have ht : s.is_terminal = false := by simpa using ht'
    cases f with
    | zero =>
      rw [minimaxF.eq_def] at h
      simp only [MinimaxNode.state] at h
      rw [if_neg (by simp [hd, ht])] at h
      exact Option.noConfusion h
    | succ f =>
      rw [minimaxF_succ_eq f s v0 sc d mr hfn hd ht] at h
      simp only [] at h
      split at h
      · injection h with h'
        injection h' with h1 h2
        subst h2
        rfl
      · exact Option.noConfusion h

/-- The expansion case of the search: under the hypothesis that every child
call returns, the node expands one successor per legal move (in order), each
successor carries the result of the recursive call at `depth - 1`, and the
returned (and stored) value is the fold of `max` / `min` over the successors'
values. -/
theorem minimaxF_expand (f : Nat) (s : State) (v0 : Val) (sc : List (Nat × MinimaxNode))
    (d : Int) (mr : String) (hfn : State → String → Int)
    (hd : ¬d = 0) (ht : s.is_terminal = false)
    (hall : ∀ m ∈ s.get_legal_moves,
      (minimaxF f (.mk (s.advance_state m) (.fin 0) []) (d - 1) mr hfn).isSome) :
    ∃ (cs : List (Nat × MinimaxNode)) (v : Val),
      minimaxF (f + 1) (.mk s v0 sc) d mr hfn = some (v, .mk s v cs) ∧
      v = (if s.turn = mr then (cs.map (fun mc => mc.2.value)).foldl vmax Val.negInf
        else (cs.map (fun mc => mc.2.value)).foldl vmin Val.posInf) ∧
      cs.map Prod.fst = s.get_legal_moves ∧
      (∀ mc ∈ cs, minimaxF f (.mk (s.advance_state mc.1) (.fin 0) []) (d - 1) mr hfn =
        some (mc.2.value, mc.2)) := by
  have hallB : ((s.get_legal_moves.map (fun m =>
      (m, minimaxF f (.mk (s.advance_state m) (.fin 0) []) (d - 1) mr hfn))).all
        (fun x => x.2.isSome)) = true := by
    rw [List.all_eq_true]
    intro x hx
    obtain ⟨m, hm, hxm⟩ := List.mem_map.mp hx
    subst hxm
    exact hall m hm
  rw [minimaxF_succ_eq f s v0 sc d mr hfn hd ht]
  simp only [hallB, if_true]
  set junk : Val × MinimaxNode := (Val.fin 0, .mk s (Val.fin 0) []) with hjunk
  set cs := ((s.get_legal_moves.map (fun m =>
      (m, minimaxF f (.mk (s.advance_state m) (.fin 0) []) (d - 1) mr hfn))).map
        (fun x => (x.1, x.2.getD junk))).map (fun x => (x.1, x.2.2)) with hcs
  have hgetv : ∀ m ∈ s.get_legal_moves,
      ((minimaxF f (.mk (s.advance_state m) (.fin 0) []) (d - 1) mr hfn).getD junk).1 =
      ((minimaxF f (.mk (s.advance_state m) (.fin 0) []) (d - 1) mr hfn).getD junk).2.value := by
    intro m hm
    obtain ⟨r, hr⟩ := Option.isSome_iff_exists.mp (hall m hm)
    rw [hr]
    exact (minimaxF_value f _ _ mr hfn r.1 r.2 (by rw [hr])).symm
  have hvals : (((s.get_legal_moves.map (fun m =>
      (m, minimaxF f (.mk (s.advance_state m) (.fin 0) []) (d - 1) mr hfn))).map
        (fun x => (x.1, x.2.getD junk))).map (fun x => x.2.1)) =
      cs.map (fun mc => mc.2.value) := by
    rw [hcs]
    simp only [List.map_map]
    exact List.map_congr_left (fun m hm => hgetv m hm)
  refine ⟨cs, _, ?_, rfl, ?_, ?_⟩
  · rw [hvals]
  · rw [hcs]
    simp only [List.map_map]
    exact List.map_id s.get_legal_moves
  · intro mc hmc
    rw [hcs] at hmc
    simp only [List.map_map, List.mem_map] at hmc
    obtain ⟨m, hm, hmcm⟩ := hmc
    obtain ⟨r, hr⟩ := Option.isSome_iff_exists.mp (hall m hm)
    subst hmcm
    simp only [Function.comp, hr, Option.getD_some]
    have hv := minimaxF_value f _ _ mr hfn r.1 r.2 (by rw [hr])
    rw [hv]

theorem minimaxF_expand_none (f : Nat) (s : State) (v0 : Val) (sc : List (Nat × MinimaxNode))
    (d : Int) (mr : String) (hfn : State → String → Int)
    (hd : ¬d = 0) (ht : s.is_terminal = false)
    (hnall : ¬∀ m ∈ s.get_legal_moves,
      (minimaxF f (.mk (s.advance_state m) (.fin 0) []) (d - 1) mr hfn).isSome) :
    minimaxF (f + 1) (.mk s v0 sc) d mr hfn = none := by
  rw [minimaxF_succ_eq f s v0 sc d mr hfn hd ht]
  simp only []
  rw [if_neg]
  intro hc
  apply hnall
  intro m hm
  rw [List.all_eq_true] at hc
  exact hc (m, minimaxF f (.mk (s.advance_state m) (.fin 0) []) (d - 1) mr hfn)
    (List.mem_map.mpr ⟨m, hm, rfl⟩)

/-- With fuel at least the (non-negative) depth, the search always returns. -/
theorem minimaxF_isSome : ∀ (f : Nat) (x : MinimaxNode) (d : Int) (mr : String)
    (hfn : State → String → Int), 0 ≤ d → d ≤ (f : Int) →
    (minimaxF f x d mr hfn).isSome = true := by
  intro f
  induction f with
  | zero =>
    intro x d mr hfn h0 h1
    obtain ⟨s, v0, sc⟩ := x
    have hd : d = 0 := le_antisymm (by exact_mod_cast h1) h0
    rw [minimaxF_base 0 s v0 sc d mr hfn (Or.inl hd)]
    rfl
  | succ f ih =>
    intro x d mr hfn h0 h1
    obtain ⟨s, v0, sc⟩ := x
    by_cases hb : d = 0 ∨ s.is_terminal = true
    · rw [minimaxF_base (f + 1) s v0 sc d mr hfn hb]
      rfl
    · push_neg at hb
      obtain ⟨hd, ht'⟩ := hb
      have ht : s.is_terminal = false := by simpa using ht'
      obtain ⟨cs, v, heq, -, -, -⟩ := minimaxF_expand f s v0 sc d mr hfn hd ht
        (fun m _ => ih _ _ mr hfn (by omega) (by push_cast; omega))
      rw [heq]
      rfl

/-! ### C1: the recursive max/min characterisation of the search -/

/-- C1.  For a non-terminal node at positive depth, the search visits one
child per legal move (no pruning), computes each child by a recursive call at
`depth - 1`, and returns — and stores in the node's value — the fold of `max`
(when the turn is the maximiser's) or `min` (otherwise) over all children's
values, which bounds every child's value from above (resp. below). -/
theorem minimax_recursion_spec (f : Nat) (s : State) (v0 : Val) (d : Int) (mr : String)
    (hfn : State → String → Int)
    (ht : s.is_terminal = false) (hd : 0 < d)
    (hall : ∀ m ∈ s.get_legal_moves,
      (minimaxF f (.mk (s.advance_state m) (.fin 0) []) (d - 1) mr hfn).isSome) :
    ∃ (cs : List (Nat × MinimaxNode)) (v : Val),
      minimaxF (f + 1) (.mk s v0 []) d mr hfn = some (v, .mk s v cs) ∧
      cs.map Prod.fst = s.get_legal_moves ∧
      (∀ mc ∈ cs, minimaxF f (.mk (s.advance_state mc.1) (.fin 0) []) (d - 1) mr hfn =
        some (mc.2.value, mc.2)) ∧
      (if s.turn = mr then
        v = (cs.map (fun mc => mc.2.value)).foldl vmax Val.negInf ∧
          ∀ mc ∈ cs, Val.le mc.2.value v = true
      else
        v = (cs.map (fun mc => mc.2.value)).foldl vmin Val.posInf ∧
          ∀ mc ∈ cs, Val.le v mc.2.value = true) := by
  obtain ⟨cs, v, heq, hv, hkeys, hchild⟩ :=
    minimaxF_expand f s v0 [] d mr hfn (by omega) ht hall
  refine ⟨cs, v, heq, hkeys, hchild, ?_⟩
  by_cases htn : s.turn = mr
  · rw [if_pos htn]
    rw [if_pos htn] at hv
    refine ⟨hv, fun mc hmc => ?_⟩
    rw [hv]
    exact foldl_vmax_le_of_mem _ _ _ (List.mem_map.mpr ⟨mc, hmc, rfl⟩)
  · rw [if_neg htn]
    rw [if_neg htn] at hv
    refine ⟨hv, fun mc hmc => ?_⟩
    rw [hv]
    exact foldl_vmin_le_of_mem _ _ _ (List.mem_map.mpr ⟨mc, hmc, rfl⟩)

/-- Witness for C1 on a concrete 2-column, 1-row game at depth 1. -/
def tiny_state : State :=
  { num_cols := 2
    num_rows := 1
    board := [["."], ["."]]
    turn := "x"
    is_terminal := false
    winner := "" }

theorem minimax_recursion_spec_witness :
    tiny_state.is_terminal = false ∧ (0 : Int) < 1 ∧
    (∀ m ∈ tiny_state.get_legal_moves,
      (minimaxF 1 (.mk (tiny_state.advance_state m) (.fin 0) []) (1 - 1) "x" zero_heur).isSome) ∧
    (∃ (cs : List (Nat × MinimaxNode)) (v : Val),
      minimaxF 2 (.mk tiny_state (.fin 0) []) 1 "x" zero_heur = some (v, .mk tiny_state v cs) ∧
      cs.map Prod.fst = tiny_state.get_legal_moves ∧
      (∀ mc ∈ cs, minimaxF 1 (.mk (tiny_state.advance_state mc.1) (.fin 0) []) (1 - 1) "x"
        zero_heur = some (mc.2.value, mc.2)) ∧
      (if tiny_state.turn = "x" then
        v = (cs.map (fun mc => mc.2.value)).foldl vmax Val.negInf ∧
          ∀ mc ∈ cs, Val.le mc.2.value v = true
      else
        v = (cs.map (fun mc => mc.2.value)).foldl vmin Val.posInf ∧
          ∀ mc ∈ cs, Val.le v mc.2.value = true)) :=
  ⟨rfl, by norm_num, by decide,
    minimax_recursion_spec 1 tiny_state (.fin 0) 1 "x" zero_heur rfl (by norm_num) (by decide)⟩

/-! ### C2: the base case (terminal states and depth 0) -/

/-- C2.  On a terminal state (at any depth) or at depth `0`, the search
returns exactly the heuristic evaluation of the wrapped state, stores it as
the node's value, and generates no successors: the fresh node's successor
mapping stays empty. -/
theorem minimax_base_case (f : Nat) (s : State) (d : Int) (mr : String)
    (hfn : State → String → Int) (h : d = 0 ∨ s.is_terminal = true) :
    minimaxF f (.mk s (.fin 0) []) d mr hfn =
      some (.fin (hfn s mr), .mk s (.fin (hfn s mr)) []) :=
  minimaxF_base f s (.fin 0) [] d mr hfn h

/-- A terminal 1×1 position (x filled the only cell; a draw). -/
def tiny_draw : State :=
  { num_cols := 1
    num_rows := 1
    board := [["x"]]
    turn := "o"
    is_terminal := true
    winner := "" }

theorem minimax_base_case_witness :
    ((5 : Int) = 0 ∨ tiny_draw.is_terminal = true) ∧
    minimaxF 3 (.mk tiny_draw (.fin 0) []) 5 "x" three_line_heur =
      some (.fin (three_line_heur tiny_draw "x"),
        .mk tiny_draw (.fin (three_line_heur tiny_draw "x")) []) :=
  ⟨Or.inr rfl, minimax_base_case 3 tiny_draw 5 "x" three_line_heur (Or.inr rfl)⟩

/-! ### C9: the search leaves the wrapped state unchanged -/

/-- C9.  A returning search call leaves the node's wrapped state exactly as
it was; the node's successors are either untouched (base case) or fresh
nodes whose states are independent copies of the wrapped state advanced by
exactly one move — the wrapped state itself is never mutated. -/
theorem minimax_frame (f : Nat) (s : State) (v0 : Val) (sc : List (Nat × MinimaxNode))
    (d : Int) (mr : String) (hfn : State → String → Int) (v : Val) (n : MinimaxNode)
    (h : minimaxF f (.mk s v0 sc) d mr hfn = some (v, n)) :
    n.state = s ∧
    (n.successors = sc ∨ ∀ mc ∈ n.successors, mc.2.state = s.advance_state mc.1) := by
  refine ⟨minimaxF_state f _ d mr hfn v n h, ?_⟩
  by_cases hb : d = 0 ∨ s.is_terminal = true
  · rw [minimaxF_base f s v0 sc d mr hfn hb] at h
    injection h with h'
    injection h' with h1 h2
    subst h2
    exact Or.inl rfl
  · push_neg at hb
    obtain ⟨hd, ht'⟩ := hb
    have ht : s.is_terminal = false := by simpa using ht'
    cases f with
    | zero =>
      rw [minimaxF.eq_def] at h
      simp only [MinimaxNode.state] at h
      rw [if_neg (by simp [hd, ht])] at h
      exact Option.noConfusion h
    | succ f =>
      by_cases hall : ∀ m ∈ s.get_legal_moves,
          (minimaxF f (.mk (s.advance_state m) (.fin 0) []) (d - 1) mr hfn).isSome
      · obtain ⟨cs, v', heq, -, -, hchild⟩ := minimaxF_expand f s v0 sc d mr hfn hd ht hall
        rw [heq] at h
        injection h with h'
        injection h' with h1 h2
        subst h2
        refine Or.inr (fun mc hmc => ?_)
        exact minimaxF_state f _ (d - 1) mr hfn mc.2.value mc.2 (hchild mc hmc)
      · rw [minimaxF_expand_none f s v0 sc d mr hfn hd ht hall] at h
        exact Option.noConfusion h

theorem minimax_frame_witness :
    ∃ (v : Val) (n : MinimaxNode),
      minimaxF 2 (.mk tiny_state (.fin 0) []) 1 "x" zero_heur = some (v, n) ∧
      n.state = tiny_state ∧
      (n.successors = [] ∨
        ∀ mc ∈ n.successors, mc.2.state = tiny_state.advance_state mc.1) := by
  obtain ⟨r, hr⟩ := Option.isSome_iff_exists.mp
    (by decide : (minimaxF 2 (.mk tiny_state (.fin 0) []) 1 "x" zero_heur).isSome = true)
  obtain ⟨h1, h2⟩ := minimax_frame 2 tiny_state (.fin 0) [] 1 "x" zero_heur r.1 r.2 hr
  exact ⟨r.1, r.2, hr, h1, h2⟩

/-! ### C4: negative depth is not rejected — the search recurses -/

/-- A 1×1 starting position used to probe negative depth. -/
def one_cell_state : State :=
  { num_cols := 1
    num_rows := 1
    board := [["."]]
    turn := "x"
    is_terminal := false
    winner := "" }

/-- C4 counterexample.  Called with the negative depth `-1` on a non-terminal
position, the search does not reject the input: the depth test `depth == 0`
never fires, the node is expanded (its successor mapping receives the legal
move `0`) and the recursion proceeds to the terminal child, returning its
evaluation `0` as a perfectly ordinary result. -/
theorem minimax_negative_depth_cex :
    (minimaxF 2 (.mk one_cell_state (.fin 0) []) (-1) "x" zero_heur).map
      (fun r => (r.1, r.2.successors.map Prod.fst)) = some (.fin 0, [0]) := by
  decide

/-- C4 amended.  The search performs no validation of its depth argument:
for any negative depth on a non-terminal node, the base-case depth test
cannot fire, so a returning call has expanded one successor per legal move
and recursed into every one of them at `depth - 1` (it terminates only by
reaching terminal states). -/
theorem minimax_negative_depth_recurses (f : Nat) (s : State) (v0 : Val) (d : Int)
    (mr : String) (hfn : State → String → Int) (hd : d < 0) (ht : s.is_terminal = false)
    (r : Val × MinimaxNode) (h : minimaxF (f + 1) (.mk s v0 []) d mr hfn = some r) :
    r.2.successors.map Prod.fst = s.get_legal_moves ∧
    ∀ mc ∈ r.2.successors, minimaxF f (.mk (s.advance_state mc.1) (.fin 0) []) (d - 1) mr hfn =
      some (mc.2.value, mc.2) := by
  by_cases hall : ∀ m ∈ s.get_legal_moves,
      (minimaxF f (.mk (s.advance_state m) (.fin 0) []) (d - 1) mr hfn).isSome
  · obtain ⟨cs, v', heq, -, hkeys, hchild⟩ :=
      minimaxF_expand f s v0 [] d mr hfn (by omega) ht hall
    rw [heq] at h
    injection h with h'
    subst h'
    exact ⟨hkeys, hchild⟩
  · rw [minimaxF_expand_none f s v0 [] d mr hfn (by omega) ht hall] at h
    exact Option.noConfusion h

theorem minimax_negative_depth_recurses_witness :
    (-1 : Int) < 0 ∧ one_cell_state.is_terminal = false ∧
    ∃ r : Val × MinimaxNode,
      minimaxF 2 (.mk one_cell_state (.fin 0) []) (-1) "x" zero_heur = some r ∧
      r.2.successors.map Prod.fst = one_cell_state.get_legal_moves ∧
      ∀ mc ∈ r.2.successors,
        minimaxF 1 (.mk (one_cell_state.advance_state mc.1) (.fin 0) []) (-1 - 1) "x"
          zero_heur = some (mc.2.value, mc.2) := by
  refine ⟨by norm_num, rfl, ?_⟩
  obtain ⟨r, hr⟩ := Option.isSome_iff_exists.mp
    (by decide : (minimaxF 2 (.mk one_cell_state (.fin 0) []) (-1) "x" zero_heur).isSome = true)
  obtain ⟨h1, h2⟩ := minimax_negative_depth_recurses 1 one_cell_state (.fin 0) (-1) "x"
    zero_heur (by norm_num) rfl r hr
  exact ⟨r, hr, h1, h2⟩

/-! ### C8: the null heuristic yields an all-zero subtree -/

/-- No terminal state occurs within `d` plies of `s` (and, per the position
contract, every non-terminal state encountered offers at least one legal
move). -/
def noTerminalWithinB : Nat → State → Bool
  | 0, s => !s.is_terminal
  | d + 1, s => !s.is_terminal && !s.get_legal_moves.isEmpty &&
      s.get_legal_moves.all (fun m => noTerminalWithinB d (s.advance_state m))

/-- Every node of a materialized search tree carries the value `v`. -/
inductive AllVal : Val → MinimaxNode → Prop where
  | mk (v : Val) (s : State) (cs : List (Nat × MinimaxNode)) :
      (∀ mc ∈ cs, AllVal v mc.2) → AllVal v (.mk s v cs)

/-- C8.  When no descendant within `d` plies is terminal, searching with the
null heuristic returns `0` and every node of the materialized subtree —
root and all recursively generated successors — has value `0`. -/
theorem minimax_zero_heur_all_zero : ∀ (d f : Nat) (s : State) (mr : String),
    noTerminalWithinB d s = true → (d : Int) ≤ (f : Int) →
    ∃ t, minimaxF f (.mk s (.fin 0) []) (d : Int) mr zero_heur = some (.fin 0, t) ∧
      AllVal (.fin 0) t := by
  intro d
  induction d with
  | zero =>
    intro f s mr hnt hf
    have ht : s.is_terminal = false := by simpa [noTerminalWithinB] using hnt
    rw [show ((0 : Nat) : Int) = 0 from rfl,
      minimaxF_base f s (.fin 0) [] 0 mr zero_heur (Or.inl rfl)]
    have hz : zero_heur s mr = 0 := by simp [zero_heur, ht]
    rw [hz]
    exact ⟨_, rfl, AllVal.mk _ _ _ (by simp)⟩
  | succ d ih =>
    intro f s mr hnt hf
    rw [noTerminalWithinB] at hnt
    simp only [Bool.and_eq_true, Bool.not_eq_true', List.all_eq_true] at hnt
    obtain ⟨⟨ht, hne⟩, hrec⟩ := hnt
    cases f with
    | zero => exfalso; exact_mod_cast absurd hf (by push_cast; omega)
    | succ f =>
      have hcast : ((d + 1 : Nat) : Int) - 1 = (d : Int) := by push_cast; ring
      have hchildren : ∀ m ∈ s.get_legal_moves,
          ∃ t, minimaxF f (.mk (s.advance_state m) (.fin 0) []) (((d + 1 : Nat) : Int) - 1)
            mr zero_heur = some (.fin 0, t) ∧ AllVal (.fin 0) t := by
        intro m hm
        rw [hcast]
        exact ih f (s.advance_state m) mr (hrec m hm) (by push_cast at hf ⊢; omega)
      have hall : ∀ m ∈ s.get_legal_moves,
          (minimaxF f (.mk (s.advance_state m) (.fin 0) []) (((d + 1 : Nat) : Int) - 1)
            mr zero_heur).isSome := by
        intro m hm
        obtain ⟨t, heq, -⟩ := hchildren m hm
        rw [heq]
        rfl
      obtain ⟨cs, v, heq, hv, hkeys, hchild⟩ := minimaxF_expand f s (.fin 0) []
        ((d + 1 : Nat) : Int) mr zero_heur (by push_cast; omega) ht hall
      have hzero : ∀ mc ∈ cs, mc.2.value = Val.fin 0 ∧ AllVal (.fin 0) mc.2 := by
        intro mc hmc
        have hmemk : mc.1 ∈ s.get_legal_moves := by
          rw [← hkeys]
          exact List.mem_map.mpr ⟨mc, hmc, rfl⟩
        obtain ⟨t, heqt, hat⟩ := hchildren mc.1 hmemk
        have := hchild mc hmc
        rw [heqt] at this
        injection this with this'
        injection this' with h1 h2
        exact ⟨h1.symm, h2 ▸ hat⟩
      have hcsne : cs ≠ [] := by
        intro hcs
        rw [hcs] at hkeys
        simp at hkeys
        rw [hkeys] at hne
        simp at hne
      have hvalsz : ∀ w ∈ cs.map (fun mc => mc.2.value), w = Val.fin 0 := by
        intro w hw
        obtain ⟨mc, hmc, hwmc⟩ := List.mem_map.mp hw
        rw [← hwmc]
        exact (hzero mc hmc).1
      have hvz : v = Val.fin 0 := by
        rw [hv]
        split
        · exact foldl_vmax_negInf_const _ (by simpa using hcsne) hvalsz
        · exact foldl_vmin_posInf_const _ (by simpa using hcsne) hvalsz
      subst hvz
      exact ⟨.mk s (.fin 0) cs, heq, AllVal.mk _ _ _ (fun mc hmc => (hzero mc hmc).2)⟩

/-- A 2×2 empty board: no terminal state within one ply. -/
def tiny_square : State :=
  { num_cols := 2
    num_rows := 2
    board := [[".", "."], [".", "."]]
    turn := "x"
    is_terminal := false
    winner := "" }

theorem minimax_zero_heur_all_zero_witness :
    noTerminalWithinB 1 tiny_square = true ∧
    ∃ t, minimaxF 1 (.mk tiny_square (.fin 0) []) ((1 : Nat) : Int) "x" zero_heur =
      some (.fin 0, t) ∧ AllVal (.fin 0) t :=
  ⟨by decide, minimax_zero_heur_all_zero 1 1 tiny_square "x" (by decide) (by norm_num)⟩

/-! ### C3: the shared terminal rule of the heuristics -/

/-- C3.  On any terminal state each of the three heuristics applies the
shared terminal rule first and instead of its position-specific scoring:
`0` on a draw (empty winner sentinel), `+100` when the winner is the
maximizing role, `-100` when the winner is the other role. -/
theorem heuristics_terminal_eval (s : State) (mr : String)
    (ht : s.is_terminal = true) (hmr : mr ≠ "") :
    (s.winner = "" →
      three_line_heur s mr = 0 ∧ zero_heur s mr = 0 ∧ my_heuristic s mr = 0) ∧
    (s.winner = mr →
      three_line_heur s mr = 100 ∧ zero_heur s mr = 100 ∧ my_heuristic s mr = 100) ∧
    (s.winner ≠ "" → s.winner ≠ mr →
      three_line_heur s mr = -100 ∧ zero_heur s mr = -100 ∧ my_heuristic s mr = -100) := by
  refine ⟨fun h => ?_, fun h => ?_, fun h1 h2 => ?_⟩
  · simp [three_line_heur, zero_heur, my_heuristic, ht, h]
  · have hne : ¬s.winner = "" := by rw [h]; exact hmr
    simp [three_line_heur, zero_heur, my_heuristic, ht, h, hne, hmr]
  · simp [three_line_heur, zero_heur, my_heuristic, ht, h1, h2]

/-- A terminal 1×1 position won by x. -/
def tiny_won : State :=
  { num_cols := 1
    num_rows := 1
    board := [["x"]]
    turn := "o"
    is_terminal := true
    winner := "x" }

theorem heuristics_terminal_eval_witness :
    tiny_won.is_terminal = true ∧ ("x" : String) ≠ "" ∧
    (tiny_won.winner = "x" →
      three_line_heur tiny_won "x" = 100 ∧ zero_heur tiny_won "x" = 100 ∧
        my_heuristic tiny_won "x" = 100) :=
  ⟨rfl, by decide, (heuristics_terminal_eval tiny_won "x" rfl (by decide)).2.1⟩

/-! ### C5/C10: characterisation of the move-selection scan -/

/-- The best (maximal) value among a successor list, as the fold the agent's
scan effectively maintains. -/
def maxOf (cs : List (Nat × MinimaxNode)) : Val :=
  (cs.map (fun mc => mc.2.value)).foldl vmax Val.negInf

/-- The moves of a successor list tied for the best value, in order. -/
def argmaxOf (cs : List (Nat × MinimaxNode)) : List Nat :=
  (cs.filter (fun mc => decide (mc.2.value = maxOf cs))).map Prod.fst

theorem vmax_negInf (w : Val) : vmax Val.negInf w = w := by
  cases w <;> rfl

theorem maxOf_append_single (p : List (Nat × MinimaxNode)) (mc : Nat × MinimaxNode) :
    maxOf (p ++ [mc]) = vmax (maxOf p) mc.2.value := by
  simp [maxOf, List.foldl_append]

theorem maxOf_mem_values (p : List (Nat × MinimaxNode)) (hne : p ≠ []) :
    ∃ mc ∈ p, mc.2.value = maxOf p := by
  cases p with
  | nil => exact absurd rfl hne
  | cons u rest =>
    have h1 : maxOf (u :: rest) =
        (rest.map (fun mc => mc.2.value)).foldl vmax u.2.value := by
      simp [maxOf, vmax_negInf]
    rcases foldl_vmax_mem (rest.map (fun mc => mc.2.value)) u.2.value with h | h
    · exact ⟨u, List.mem_cons_self u rest, by rw [h1, h]⟩
    · obtain ⟨mc, hmc, hv⟩ := List.mem_map.mp h
      exact ⟨mc, List.mem_cons_of_mem u hmc, by rw [h1]; exact hv⟩

theorem le_maxOf_of_mem (p : List (Nat × MinimaxNode)) (mc : Nat × MinimaxNode)
    (h : mc ∈ p) : Val.le mc.2.value (maxOf p) = true :=
  foldl_vmax_le_of_mem _ _ _ (List.mem_map.mpr ⟨mc, h, rfl⟩)

theorem argmaxOf_ne_nil (p : List (Nat × MinimaxNode)) (hne : p ≠ []) :
    argmaxOf p ≠ [] := by
  obtain ⟨mc, hmc, hv⟩ := maxOf_mem_values p hne
  have : mc ∈ p.filter (fun mc => decide (mc.2.value = maxOf p)) :=
    List.mem_filter.mpr ⟨hmc, by simp [hv]⟩
  intro hbad
  rw [argmaxOf] at hbad
  rw [List.map_eq_nil] at hbad
  rw [hbad] at this
  exact List.not_mem_nil mc this

theorem lookup_of_mem_nodup : ∀ (l : List (Nat × MinimaxNode)),
    (l.map Prod.fst).Nodup → ∀ mc ∈ l, l.lookup mc.1 = some mc.2 := by
  intro l
  induction l with
  | nil => intro _ mc hmc; exact absurd hmc (List.not_mem_nil mc)
  | cons x rest ih =>
    intro hnd mc hmc
    rw [List.map_cons, List.nodup_cons] at hnd
    rcases List.mem_cons.mp hmc with h | h
    · subst h
      simp [List.lookup]
    · have hne : x.1 ≠ mc.1 := by
        intro hx
        exact hnd.1 (hx ▸ List.mem_map.mpr ⟨mc, h, rfl⟩)
      rw [List.lookup]
      have hbeq : (mc.1 == x.1) = false := beq_eq_false_iff_ne.mpr (fun hx => hne hx.symm)
      rw [hbeq]
      exact ih hnd.2 mc h

theorem lookup_append_of_mem : ∀ (p suf : List (Nat × MinimaxNode)) (b : Nat),
    b ∈ p.map Prod.fst → (p ++ suf).lookup b = p.lookup b := by
  intro p
  induction p with
  | nil => intro suf b hb; exact absurd hb (List.not_mem_nil b)
  | cons x rest ih =>
    intro suf b hb
    rw [List.cons_append, List.lookup, List.lookup]
    by_cases hbx : (b == x.1) = true
    · rw [hbx]
    · have hbx' : (b == x.1) = false := by
        revert hbx
        cases b == x.1 <;> simp
      rw [hbx']
      show List.lookup b (rest ++ suf) = List.lookup b rest
      refine ih suf b ?_
      rcases (by simpa using hb : b = x.1 ∨ ∃ y, (b, y) ∈ rest) with h | ⟨y, h⟩
      · exact absurd (by simp [h]) hbx
      · exact List.mem_map.mpr ⟨(b, y), h, rfl⟩

theorem bm_step_eq (L p suf : List (Nat × MinimaxNode)) (mc : Nat × MinimaxNode)
    (hL : L = p ++ mc :: suf) (hnd : (L.map Prod.fst).Nodup) :
    bmStep L (argmaxOf p) mc = argmaxOf (p ++ [mc]) := by
  have hpnd : (p.map Prod.fst).Nodup := by
    have hsub : List.Sublist (p.map Prod.fst) (L.map Prod.fst) := by
      rw [hL, List.map_append]
      exact List.sublist_append_left _ _
    exact hnd.sublist hsub
  by_cases hp : p = []
  · subst hp
    simp [bmStep, argmaxOf, maxOf, vmax_negInf]
  · have hbm := argmaxOf_ne_nil p hp
    cases hargm : argmaxOf p with
    | nil => exact absurd hargm hbm
    | cons b bs =>
      have hbmem : b ∈ argmaxOf p := by rw [hargm]; exact List.mem_cons_self b bs
      obtain ⟨cb, hcbmem, hcb1, hcbv⟩ : ∃ cb ∈ p, cb.1 = b ∧ cb.2.value = maxOf p := by
        rw [argmaxOf] at hbmem
        obtain ⟨cb, hcb, hcbb⟩ := List.mem_map.mp hbmem
        obtain ⟨hcbp, hcbv⟩ := List.mem_filter.mp hcb
        exact ⟨cb, hcbp, hcbb, by simpa using hcbv⟩
      have hlook : L.lookup b = some cb.2 := by
        rw [hL, show p ++ mc :: suf = p ++ (mc :: suf) from rfl,
          lookup_append_of_mem p _ b (hcb1 ▸ List.mem_map.mpr ⟨cb, hcbmem, rfl⟩)]
        rw [← hcb1]
        exact lookup_of_mem_nodup p hpnd cb hcbmem
      rw [bmStep]
      rw [hlook]
      show (if Val.lt cb.2.value mc.2.value = true then [mc.1]
        else if mc.2.value = cb.2.value then (b :: bs) ++ [mc.1] else b :: bs) =
        argmaxOf (p ++ [mc])
      by_cases hlt : Val.lt cb.2.value mc.2.value = true
      · rw [if_pos hlt]
        have hM : maxOf (p ++ [mc]) = mc.2.value := by
          rw [maxOf_append_single, vmax, if_pos (by rw [← hcbv]; exact hlt)]
        rw [argmaxOf, List.filter_append, hM]
        have hfp : p.filter (fun x => decide (x.2.value = mc.2.value)) = [] := by
          rw [List.filter_eq_nil]
          intro x hx
          simp only [decide_eq_true_iff]
          intro hxv
          have hle := le_maxOf_of_mem p x hx
          rw [hxv, ← hcbv] at hle
          rw [hcbv] at hlt
          rw [Val.le] at hle
          rw [← hcbv] at hlt
          rw [hcbv] at hle hlt
          rw [hlt] at hle
          exact Bool.noConfusion hle
        rw [hfp]
        simp
      · rw [if_neg hlt]
        by_cases heqv : mc.2.value = cb.2.value
        · rw [if_pos heqv]
          have hM : maxOf (p ++ [mc]) = maxOf p := by
            rw [maxOf_append_single, vmax, if_neg (by rw [heqv, hcbv]; simp [Val.lt_irrefl])]
          rw [argmaxOf, List.filter_append, hM, ← hargm, argmaxOf]
          have hfm : [mc].filter (fun x => decide (x.2.value = maxOf p)) = [mc] := by
            simp [heqv, hcbv]
          rw [hfm, List.map_append]
          rfl
        · rw [if_neg heqv]
          have hM : maxOf (p ++ [mc]) = maxOf p := by
            rw [maxOf_append_single, vmax, if_neg (by rw [← hcbv]; exact hlt)]
          rw [argmaxOf, List.filter_append, hM, ← hargm, argmaxOf]
          have hfm : [mc].filter (fun x => decide (x.2.value = maxOf p)) = [] := by
            simp [← hcbv, heqv]
          rw [hfm, List.append_nil]

theorem bm_fold (L : List (Nat × MinimaxNode)) (hnd : (L.map Prod.fst).Nodup) :
    ∀ (suf p : List (Nat × MinimaxNode)), p ++ suf = L →
    suf.foldl (bmStep L) (argmaxOf p) = argmaxOf L := by
  intro suf
  induction suf with
  | nil =>
    intro p hp
    rw [List.append_nil] at hp
    rw [hp, List.foldl_nil]
  | cons mc rest ih =>
    intro p hp
    rw [List.foldl_cons, bm_step_eq L p rest mc hp.symm hnd]
    exact ih (p ++ [mc]) (by rw [List.append_assoc]; exact hp)

/-- Under distinct successor keys, the agent's scan returns exactly the
in-order list of moves whose child value is the maximal child value. -/
theorem best_moves_eq_argmax (root : MinimaxNode)
    (hnd : (root.successors.map Prod.fst).Nodup) :
    best_moves root = argmaxOf root.successors := by
  rw [best_moves, show argmaxOf root.successors =
    root.successors.foldl (bmStep root.successors) (argmaxOf []) from
      (bm_fold root.successors hnd root.successors [] rfl).symm]
  rfl

theorem get_legal_moves_nodup (s : State) : s.get_legal_moves.Nodup :=
  (List.nodup_range s.num_cols).filter _

/-- C5.  For a non-terminal state and a configured depth of at least 1 (with
sufficient fuel, and a legal move available per the position contract), the
agent's `play` always returns a legal move whose root-child value is the
maximum value over all of the root's immediate children, and every move tied
for that maximum is a possible output (for a suitable random draw). -/
theorem play_selects_best (f : Nat) (s : State) (d : Int) (mr : String)
    (hfn : State → String → Int) (ht : s.is_terminal = false) (hd : 1 ≤ d)
    (hf : d ≤ (f : Int)) (hmv : s.get_legal_moves ≠ []) :
    ∃ (v : Val) (cs : List (Nat × MinimaxNode)),
      minimaxF f (.mk s (.fin 0) []) d mr hfn = some (v, .mk s v cs) ∧
      cs.map Prod.fst = s.get_legal_moves ∧
      (∀ mc ∈ cs, Val.le mc.2.value (maxOf cs) = true) ∧
      (∀ k, ∃ m c, play f d mr hfn k s = some m ∧ m ∈ s.get_legal_moves ∧
        cs.lookup m = some c ∧ c.value = maxOf cs) ∧
      (∀ mc ∈ cs, mc.2.value = maxOf cs → ∃ k, play f d mr hfn k s = some mc.1) := by
  cases f with
  | zero => exfalso; simp at hf; omega
  | succ f =>
    have hall : ∀ m ∈ s.get_legal_moves,
        (minimaxF f (.mk (s.advance_state m) (.fin 0) []) (d - 1) mr hfn).isSome := by
      intro m _
      refine minimaxF_isSome f _ (d - 1) mr hfn (by omega) ?_
      push_cast at hf
      omega
    obtain ⟨cs, v, heq, hv, hkeys, hchild⟩ :=
      minimaxF_expand f s (.fin 0) [] d mr hfn (by omega) ht hall
    have hndk : (cs.map Prod.fst).Nodup := by rw [hkeys]; exact get_legal_moves_nodup s
    have hbm : best_moves (.mk s v cs) = argmaxOf cs := best_moves_eq_argmax _ hndk
    have hcsne : cs ≠ [] := by
      intro hc
      apply hmv
      rw [← hkeys, hc]
      rfl
    have hane : argmaxOf cs ≠ [] := argmaxOf_ne_nil cs hcsne
    have hplay : ∀ k, play (f + 1) d mr hfn k s =
        (argmaxOf cs).get? (k % (argmaxOf cs).length) := by
      intro k
      rw [play, heq]
      simp only [hbm]
      rw [if_neg (by simpa [List.isEmpty_iff] using hane)]
    refine ⟨v, cs, heq, hkeys, fun mc hmc => le_maxOf_of_mem cs mc hmc, ?_, ?_⟩
    · intro k
      have hlen : 0 < (argmaxOf cs).length := List.length_pos.mpr hane
      have hkl : k % (argmaxOf cs).length < (argmaxOf cs).length := Nat.mod_lt _ hlen
      have hget : (argmaxOf cs).get? (k % (argmaxOf cs).length) =
          some ((argmaxOf cs).get ⟨k % (argmaxOf cs).length, hkl⟩) := List.get?_eq_get hkl
      have hmmem : (argmaxOf cs).get ⟨k % (argmaxOf cs).length, hkl⟩ ∈ argmaxOf cs :=
        List.get_mem _ _ hkl
      obtain ⟨mc, hmcf, hmc1⟩ := List.mem_map.mp
        (show (argmaxOf cs).get ⟨k % (argmaxOf cs).length, hkl⟩ ∈
          (cs.filter (fun mc => decide (mc.2.value = maxOf cs))).map Prod.fst from hmmem)
      obtain ⟨hmcs, hmcv⟩ := List.mem_filter.mp hmcf
      refine ⟨_, mc.2, by rw [hplay k, hget], ?_, ?_, by simpa using hmcv⟩
      · rw [← hkeys]
        exact hmc1 ▸ List.mem_map.mpr ⟨mc, hmcs, rfl⟩
      · rw [← hmc1]
        exact lookup_of_mem_nodup cs hndk mc hmcs
    · intro mc hmc hval
      have hmem : mc.1 ∈ argmaxOf cs :=
        List.mem_map.mpr ⟨mc, List.mem_filter.mpr ⟨hmc, by simp [hval]⟩, rfl⟩
      obtain ⟨i, hi⟩ := List.mem_iff_get.mp hmem
      refine ⟨i.1, ?_⟩
      rw [hplay i.1]
      have hmod : i.1 % (argmaxOf cs).length = i.1 := Nat.mod_eq_of_lt i.2
      rw [hmod, List.get?_eq_get i.2, hi]

theorem play_selects_best_witness :
    tiny_state.is_terminal = false ∧ (1 : Int) ≤ 1 ∧ ((1 : Int) ≤ ((1 : Nat) : Int)) ∧
    tiny_state.get_legal_moves ≠ [] ∧
    ∃ (v : Val) (cs : List (Nat × MinimaxNode)),
      minimaxF 1 (.mk tiny_state (.fin 0) []) 1 "x" zero_heur = some (v, .mk tiny_state v cs) ∧
      cs.map Prod.fst = tiny_state.get_legal_moves ∧
      (∀ mc ∈ cs, Val.le mc.2.value (maxOf cs) = true) ∧
      (∀ k, ∃ m c, play 1 1 "x" zero_heur k tiny_state = some m ∧
        m ∈ tiny_state.get_legal_moves ∧ cs.lookup m = some c ∧ c.value = maxOf cs) ∧
      (∀ mc ∈ cs, mc.2.value = maxOf cs →
        ∃ k, play 1 1 "x" zero_heur k tiny_state = some mc.1) :=
  ⟨rfl, le_refl 1, by norm_num, by decide,
    play_selects_best 1 tiny_state 1 "x" zero_heur rfl (le_refl 1) (by norm_num) (by decide)⟩

/-- C10.  On a terminal state, or whenever the configured depth is 0, the
root gets no successors, so the agent's best-move list is empty and `play`
fails (the empty random range raises) instead of returning a move. -/
theorem play_fails_on_base (f : Nat) (s : State) (d : Int) (mr : String)
    (hfn : State → String → Int) (h : s.is_terminal = true ∨ d = 0) (k : Nat) :
    (minimaxF f (.mk s (.fin 0) []) d mr hfn).map (fun r => best_moves r.2) = some [] ∧
    play f d mr hfn k s = none := by
  have hb := minimaxF_base f s (.fin 0) [] d mr hfn h.symm
  constructor
  · rw [hb]
    rfl
  · rw [play, hb]
    rfl

theorem play_fails_on_base_witness :
    (tiny_draw.is_terminal = true ∨ (5 : Int) = 0) ∧
    (minimaxF 3 (.mk tiny_draw (.fin 0) []) 5 "x" three_line_heur).map
      (fun r => best_moves r.2) = some [] ∧
    play 3 5 "x" three_line_heur 0 tiny_draw = none :=
  ⟨Or.inl rfl, play_fails_on_base 3 tiny_draw 5 "x" three_line_heur (Or.inl rfl) 0⟩

/-! ### C6: what `three_line_heur` actually counts -/

/-- The contribution of one (cell, direction) pair as the implementation
counts it: `±1` when the cell is occupied and the two next cells in the
direction are in bounds and carry the same mark — with no requirement on any
fourth cell and no exactness of the run. -/
def windowContrib (s : State) (mr : String) (i j dir : Nat) : Int :=
  let dc := col_dirs.getD dir 0
  let dr := row_dirs.getD dir 0
  let piece := s.cell i j
  if piece ≠ "." ∧ s.coords_legal ((i : Int) + 2 * dc) ((j : Int) + 2 * dr) = true ∧
      piece = s.cellI ((i : Int) + dc) ((j : Int) + dr) ∧
      piece = s.cellI ((i : Int) + 2 * dc) ((j : Int) + 2 * dr) then
    if piece = mr then 1 else -1
  else 0

/-- The signed count of length-3 same-mark windows over all cells and the
four directions — the quantity `three_line_heur` computes on non-terminal
states. -/
def three_line_count (s : State) (mr : String) : Int :=
  ((List.range s.num_cols).map (fun i =>
    ((List.range s.num_rows).map (fun j =>
      ((List.range col_dirs.length).map (fun dir => windowContrib s mr i j dir)).sum)).sum)).sum

/-- The contribution of one (cell, direction) pair as the claim words it
("the start of an exact run of three identical marks with a fourth in-bounds
cell beyond it"): the three window cells agree, the fourth cell beyond the
run is in bounds and breaks the run, and the run does not extend backwards. -/
def three_line_spec_contrib (s : State) (mr : String) (i j dir : Nat) : Int :=
  let dc := col_dirs.getD dir 0
  let dr := row_dirs.getD dir 0
  let piece := s.cell i j
  if piece ≠ "." ∧
      s.coords_legal ((i : Int) + dc) ((j : Int) + dr) = true ∧
      s.coords_legal ((i : Int) + 2 * dc) ((j : Int) + 2 * dr) = true ∧
      piece = s.cellI ((i : Int) + dc) ((j : Int) + dr) ∧
      piece = s.cellI ((i : Int) + 2 * dc) ((j : Int) + 2 * dr) ∧
      s.coords_legal ((i : Int) + 3 * dc) ((j : Int) + 3 * dr) = true ∧
      s.cellI ((i : Int) + 3 * dc) ((j : Int) + 3 * dr) ≠ piece ∧
      ¬(s.coords_legal ((i : Int) - dc) ((j : Int) - dr) = true ∧
        s.cellI ((i : Int) - dc) ((j : Int) - dr) = piece) then
    if piece = mr then 1 else -1
  else 0

/-- The signed count the claim describes. -/
def three_line_spec (s : State) (mr : String) : Int :=
  ((List.range s.num_cols).map (fun i =>
    ((List.range s.num_rows).map (fun j =>
      ((List.range col_dirs.length).map (fun dir =>
        three_line_spec_contrib s mr i j dir)).sum)).sum)).sum

theorem foldl_add_sum (g : Nat → Int) (step : Int → Nat → Int)
    (h : ∀ r x, step r x = r + g x) : ∀ (l : List Nat) (a : Int),
    l.foldl step a = a + (l.map g).sum
  | [], a => by simp
  | x :: l, a => by
    rw [List.foldl_cons, h, foldl_add_sum g step h l, List.map_cons, List.sum_cons]
    ring

theorem windowContrib_step (s : State) (mr : String) (i j : Nat)
    (hocc : s.cell i j ≠ ".") (r : Int) (dir : Nat) :
    (if s.coords_legal ((i : Int) + 2 * col_dirs.getD dir 0)
        ((j : Int) + 2 * row_dirs.getD dir 0) then
      if s.cell i j = s.cellI ((i : Int) + col_dirs.getD dir 0)
            ((j : Int) + row_dirs.getD dir 0) ∧
          s.cell i j = s.cellI ((i : Int) + 2 * col_dirs.getD dir 0)
            ((j : Int) + 2 * row_dirs.getD dir 0) then
        if s.cell i j = mr then r + 1 else r - 1
      else r
    else r) = r + windowContrib s mr i j dir := by
  have hw : windowContrib s mr i j dir =
      if s.cell i j ≠ "." ∧
          s.coords_legal ((i : Int) + 2 * col_dirs.getD dir 0)
            ((j : Int) + 2 * row_dirs.getD dir 0) = true ∧
          s.cell i j = s.cellI ((i : Int) + col_dirs.getD dir 0)
            ((j : Int) + row_dirs.getD dir 0) ∧
          s.cell i j = s.cellI ((i : Int) + 2 * col_dirs.getD dir 0)
            ((j : Int) + 2 * row_dirs.getD dir 0) then
        (if s.cell i j = mr then 1 else -1)
      else 0 := rfl
  rw [hw]
  by_cases hA : s.coords_legal ((i : Int) + 2 * col_dirs.getD dir 0)
      ((j : Int) + 2 * row_dirs.getD dir 0) = true
  · rw [if_pos hA]
    by_cases hB : s.cell i j = s.cellI ((i : Int) + col_dirs.getD dir 0)
          ((j : Int) + row_dirs.getD dir 0) ∧
        s.cell i j = s.cellI ((i : Int) + 2 * col_dirs.getD dir 0)
          ((j : Int) + 2 * row_dirs.getD dir 0)
    · rw [if_pos hB]
      have hW : s.cell i j ≠ "." ∧
          s.coords_legal ((i : Int) + 2 * col_dirs.getD dir 0)
            ((j : Int) + 2 * row_dirs.getD dir 0) = true ∧
          s.cell i j = s.cellI ((i : Int) + col_dirs.getD dir 0)
            ((j : Int) + row_dirs.getD dir 0) ∧
          s.cell i j = s.cellI ((i : Int) + 2 * col_dirs.getD dir 0)
            ((j : Int) + 2 * row_dirs.getD dir 0) := ⟨hocc, hA, hB⟩
      rw [if_pos hW]
      by_cases hC : s.cell i j = mr
      · simp only [if_pos hC]
      · simp only [if_neg hC]
        ring
    · rw [if_neg hB, if_neg (fun hW => hB ⟨hW.2.2.1, hW.2.2.2⟩), add_zero]
  · rw [if_neg hA, if_neg (fun hW => hA hW.2.1), add_zero]

/-- A non-terminal board whose only marks are three x's ending flush at the
right edge of the bottom row. -/
def cex_three : State :=
  { num_cols := 7
    num_rows := 6
    board := [List.replicate 6 ".", List.replicate 6 ".", List.replicate 6 ".",
      List.replicate 6 ".", "x" :: List.replicate 5 ".", "x" :: List.replicate 5 ".",
      "x" :: List.replicate 5 "."]
    turn := "o"
    is_terminal := false
    winner := "" }

/-- C6 counterexample.  On a non-terminal board with an exact horizontal
three-in-a-row ending flush at the board edge, `three_line_heur` counts the
window (result `1`) even though there is no in-bounds fourth cell beyond the
run, so the claim's count (result `0`) disagrees with the code. -/
theorem three_line_heur_cex :
    three_line_heur cex_three "x" = 1 ∧ three_line_spec cex_three "x" = 0 ∧
    cex_three.is_terminal = false := by
  refine ⟨by decide, by decide, rfl⟩

/-- C6 amended.  On every non-terminal state, `three_line_heur` returns the
signed count, over all occupied cells and the four directions, of length-3
windows of identical marks (the cell and the two next cells in the
direction, all in bounds): `+1` when the mark is the maximizing role's and
`-1` otherwise, with no exactness or fourth-cell requirement. -/
theorem three_line_heur_eq_count (s : State) (mr : String)
    (ht : s.is_terminal = false) :
    three_line_heur s mr = three_line_count s mr := by
  rw [three_line_heur, if_neg (by simp [ht])]
  rw [foldl_add_sum (fun i =>
    ((List.range s.num_rows).map (fun j =>
      ((List.range col_dirs.length).map (fun dir =>
        windowContrib s mr i j dir)).sum)).sum) _ ?houter]
  case houter =>
    intro r i
    simp only []
    rw [foldl_add_sum (fun j =>
      ((List.range col_dirs.length).map (fun dir =>
        windowContrib s mr i j dir)).sum) _ ?hmid]
    case hmid =>
      intro r j
      simp only []
      by_cases hocc : s.cell i j ≠ "."
      · rw [if_pos hocc]
        rw [foldl_add_sum (fun dir => windowContrib s mr i j dir) _ ?hinner]
        case hinner =>
          intro r dir
          exact windowContrib_step s mr i j hocc r dir
      · rw [if_neg hocc]
        have hz : ((List.range col_dirs.length).map (fun dir =>
            windowContrib s mr i j dir)).sum = 0 := by
          apply List.sum_eq_zero
          intro x hx
          obtain ⟨dir, -, hdx⟩ := List.mem_map.mp hx
          rw [← hdx, windowContrib, if_neg (fun hc => hocc hc.1)]
        rw [hz, add_zero]
  rw [zero_add]
  rfl

theorem three_line_heur_eq_count_witness :
    cex_three.is_terminal = false ∧
    three_line_heur cex_three "x" = three_line_count cex_three "x" :=
  ⟨rfl, three_line_heur_eq_count cex_three "x" rfl⟩

/-! ### C7: the composite heuristic breaks the ±100 value bound -/

/-- A position reached from the empty 7×6 board by the legal alternating
sequence 1,0,1,0,1,6,2,6,2,6,2,5,3,5,6,6,3,6,5,5,3 (x then o): a 3×3 block
of x in columns 1–3, with the o pieces parked in columns 0, 5 and 6.  It is
non-terminal, and no legal move of the player to move (o) reaches a terminal
state. -/
def cex_bound : State :=
  { num_cols := 7
    num_rows := 6
    board := [["o", "o", ".", ".", ".", "."],
      ["x", "x", "x", ".", ".", "."],
      ["x", "x", "x", ".", ".", "."],
      ["x", "x", "x", ".", ".", "."],
      [".", ".", ".", ".", ".", "."],
      ["o", "o", "x", "o", ".", "."],
      ["o", "o", "o", "x", "o", "o"]]
    turn := "o"
    is_terminal := false
    winner := "" }

set_option maxRecDepth 40000 in
/-- C7.  `my_heuristic` evaluates the reachable, non-terminal position
`cex_bound` — which is not one ply from any terminal outcome — to `112`,
outside the claimed open interval `(-100, 100)`; a depth-0 search returns
exactly that value.  The non-terminal score range of the composite heuristic
therefore reaches past ±100, violating the spec's terminal-dominance
requirement. -/
theorem my_heuristic_exceeds_bound :
    playSeq initial_state [1, 0, 1, 0, 1, 6, 2, 6, 2, 6, 2, 5, 3, 5, 6, 6, 3, 6, 5, 5, 3] =
      some cex_bound ∧
    cex_bound.is_terminal = false ∧
    (∀ m ∈ cex_bound.get_legal_moves, (cex_bound.advance_state m).is_terminal = false) ∧
    my_heuristic cex_bound "x" = 112 ∧
    ¬(-100 < my_heuristic cex_bound "x" ∧ my_heuristic cex_bound "x" < 100) ∧
    minimaxF 1 (.mk cex_bound (.fin 0) []) 0 "x" my_heuristic =
      some (.fin 112, .mk cex_bound (.fin 112) []) := by
  have h112 : my_heuristic cex_bound "x" = 112 := by decide
  refine ⟨by decide, rfl, by decide, h112, by rw [h112]; decide, ?_⟩
  rw [minimaxF_base 1 cex_bound (.fin 0) [] 0 "x" my_heuristic (Or.inl rfl), h112]

end C4
